import Mathlib

/-!
Verification of the domain-assignment pass in `src/V3OrderProcessDomains.cpp`
(class `V3OrderProcessDomains`).  The C++ pass walks an ordering graph,
assigns each vertex a sensitivity domain (an `AstSenTree*`) computed from its
predecessors, collects never-triggered logic vertices, and deletes them after
the walk.  We embed the pass shallowly: `AstSenTree` values become `SenTree`
records, the never-dereferenced sentinel pointer `m_deleteDomainp` becomes the
constructor `Dom.del`, pointer equality on interned trees becomes structural
equality (justified by the interning guarantee of `SenTreeFinder`: two
structurally equal canonical trees are the same object), and fatal `UASSERT`
failures become `Except.error`.
-/

/-- Edge kind of one sensitivity item of an `AstSenTree` (posedge, negedge, or
a combinational/level trigger).  The combinational kind is what
`AstSenTree::hasCombo` detects. -/
inductive SenEdge where
  | pos
  | neg
  | combo
deriving DecidableEq, Repr

/-- One `AstSenItem`: an edge kind applied to a signal (signals are numbered). -/
structure SenItem where
  edge : SenEdge
  signal : Nat
deriving DecidableEq, Repr

/-- Whether a sensitivity item is a combinational (level) trigger. -/
def SenItem.isCombo (i : SenItem) : Bool :=
  match i.edge with
  | SenEdge.combo => true
  | _ => false

/-- An `AstSenTree`: its list of sensitivity items, its `multi` comment flag,
and whether it has a back pointer (`backp()`), i.e. whether it is one of the
existing canonical global trees rather than an intermediate built during a
merge chain. -/
structure SenTree where
  senses : List SenItem
  multi : Bool
  backp : Bool
deriving DecidableEq, Repr

/-- The `hasCombo()` query of `AstSenTree`. -/
def SenTree.hasCombo (t : SenTree) : Bool :=
  t.senses.any SenItem.isCombo

/-- An `AstSenTree*` as used by the pass: either the delete sentinel
`m_deleteDomainp` (a never-dereferenced marker pointer) or an actual tree. -/
inductive Dom where
  | del
  | tree (t : SenTree)
deriving DecidableEq, Repr

/-- The `combineDomains` method: merge two domains without simplifying.
Mirrors the source: identity short-circuit; sentinel on the left returns the
right argument; sentinel on the right is a fatal `UASSERT_OBJ`; otherwise the
result holds the concatenated items (clone of `ap` if it was canonical, else
in-place extension of `ap`), so it has `ap`'s `multi` flag and no back
pointer. -/
def combineDomains (ap bp : Dom) : Except String Dom :=
  if ap = bp then Except.ok ap
  else
    match ap, bp with
    | Dom.del, _ => Except.ok bp
    | _, Dom.del => Except.error "bp should not be delete domain"
    | Dom.tree a, Dom.tree b =>
        Except.ok (Dom.tree { senses := a.senses ++ b.senses, multi := a.multi, backp := false })

/-- Comparison of sensitivity items by an injective numeric key, used to state
that the canonicalizing simplifier sorts items. -/
def SenEdge.rank : SenEdge → Nat
  | SenEdge.pos => 0
  | SenEdge.neg => 1
  | SenEdge.combo => 2

/-- Injective key of a sensitivity item. -/
def SenItem.key (i : SenItem) : Nat :=
  3 * i.signal + i.edge.rank

/-- The order in which the simplifier sorts sensitivity items. -/
def senLE (a b : SenItem) : Prop :=
  a.key ≤ b.key

instance : DecidableRel senLE :=
  fun a b => Nat.decLe a.key b.key

instance : IsTotal SenItem senLE :=
  ⟨fun a b => Nat.le_total a.key b.key⟩

instance : IsTrans SenItem senLE :=
  ⟨fun _ _ _ h1 h2 => Nat.le_trans h1 h2⟩

instance : IsAntisymm SenItem senLE := ⟨by
  intro a b h1 h2
  have hk : a.key = b.key := Nat.le_antisymm h1 h2
  cases a with
  | mk ea sa =>
  cases b with
  | mk eb sb =>
  simp only [SenItem.key] at hk
  have hra : SenEdge.rank ea < 3 := by cases ea <;> decide
  have hrb : SenEdge.rank eb < 3 := by cases eb <;> decide
  have hs : sa = sb := by omega
  have hr : SenEdge.rank ea = SenEdge.rank eb := by omega
  have he : ea = eb := by
    cases ea <;> cases eb <;> first | rfl | simp [SenEdge.rank] at hr
  rw [hs, he]⟩

/-- Modelled from the spec: `V3Const::constifyExpensiveEdit` applied to a
`SenTree` is not part of `src/`; the spec describes the Simplifier as removing
duplicate/redundant sensitivity items (structural simplification without
changing semantics) and requires that merging the same domains in either input
order yields structurally-equal canonical results, so deduplication is
modelled together with a canonical sort of the items. -/
def constifyExpensiveEdit (l : List SenItem) : List SenItem :=
  (l.insertionSort senLE).dedup

/-- The `simplifyDomain` method: canonicalize a tree.  A tree with a back
pointer is already one of the existing global trees and is returned unchanged;
otherwise the items are simplified, the tree is flagged `multi`, and the
result is interned in the global store (`SenTreeFinder::getSenTree`), which
hands back the canonical tree with a back pointer. -/
def simplifyDomain (t : SenTree) : SenTree :=
  if t.backp then t
  else { senses := constifyExpensiveEdit t.senses, multi := true, backp := true }

/-- Canonicalization lifted to a possibly-sentinel domain (the sentinel is
never passed to `simplifyDomain` by the pass). -/
def canonicalize (d : Dom) : Dom :=
  match d with
  | Dom.del => Dom.del
  | Dom.tree t => Dom.tree (simplifyDomain t)

/-- Combine two real domains and canonicalize the result, as the pass does
when merging predecessor domains. -/
def mergeCanon (a b : SenTree) : Except String Dom :=
  match combineDomains (Dom.tree a) (Dom.tree b) with
  | Except.error msg => Except.error msg
  | Except.ok d => Except.ok (canonicalize d)

/-- Kind of an ordering-graph vertex: an `OrderLogicVertex`, or one of the
`OrderVarVertex` subclasses (`Std`, `Pre`, `Post`, `Pord`). -/
inductive VtxKind where
  | logic
  | varStd
  | varPre
  | varPost
  | varPord
deriving DecidableEq, Repr

/-- Whether the vertex is an `OrderVarVertex` (any variable subclass). -/
def VtxKind.isVar (k : VtxKind) : Bool :=
  match k with
  | VtxKind.logic => false
  | _ => true

/-- An ordering-graph vertex (`OrderEitherVertex`).  `domainMatters` is the
virtual `domainMatters()` of the vertex subclass (defined outside `src/`, so
it is carried as data); `hybrid` is `OrderLogicVertex::hybridp()` (only read
on logic vertices); `initDomain` is the domain the vertex arrives with
(pre-assigned sequential logic) or `none`; `vscp` numbers the variable scope
of a variable vertex; `nodep` numbers the logic content of a logic vertex;
`inEdges` lists incoming edges as (source vertex index, weight) pairs. -/
structure OrderVertex where
  kind : VtxKind
  domainMatters : Bool
  hybrid : Option SenTree
  initDomain : Option Dom
  vscp : Nat
  nodep : Nat
  inEdges : List (Nat × Nat)
deriving DecidableEq, Repr

/-- The fields of a vertex that the edge loop reads from an edge's source
vertex (it never reads the source's own edge list). -/
structure VtxInfo where
  kind : VtxKind
  domainMatters : Bool
  vscp : Nat
deriving DecidableEq, Repr

/-- Projection of a vertex to the fields visible to the edge loop. -/
def OrderVertex.info (v : OrderVertex) : VtxInfo :=
  { kind := v.kind, domainMatters := v.domainMatters, vscp := v.vscp }

/-- Mutable state of the pass: the current domain field of every vertex
(indexed like the vertex list, `none` meaning still unset) and the
`m_logicpsToDelete` list of recorded dead logic vertices. -/
structure PassState where
  doms : List (Option Dom)
  toDelete : List Nat
deriving DecidableEq, Repr

/-- Folding one external domain into a predecessor domain, with the fatal
`UASSERT_OBJ` checks of the source: the external tree must have no
combinational term and must be canonical (have a back pointer). -/
def checkExternal (d : Dom) (x : SenTree) : Except String Dom :=
  if x.hasCombo then Except.error "There should be no need for combinational domains"
  else if !x.backp then Except.error "External SenTree should have backp"
  else combineDomains d (Dom.tree x)

/-- Fold all external domains reported for a variable into its domain. -/
def foldExternal (d : Dom) : List SenTree → Except String Dom
  | [] => Except.ok d
  | x :: rest =>
    match checkExternal d x with
    | Except.error msg => Except.error msg
    | Except.ok d2 => foldExternal d2 rest

/-- The fatal `UASSERT` checks on a predecessor's resolved domain: it must be
the sentinel or a canonical tree with no combinational term. -/
def checkFromDomain : Dom → Except String Unit
  | Dom.del => Except.ok ()
  | Dom.tree t =>
    if t.hasCombo then Except.error "There should be no need for combinational domains"
    else if !t.backp then Except.error "Driver SenTree should have backp"
    else Except.ok ()

/-- Fold one (possibly-extended) predecessor domain into the working domain:
a sentinel contributes nothing; the first real contribution becomes the
working domain; later ones are merged with `combineDomains`. -/
def mergeInput (acc : Option Dom) (fromDom : Dom) : Except String (Option Dom) :=
  if fromDom = Dom.del then Except.ok acc
  else
    match acc with
    | none => Except.ok (some fromDom)
    | some d =>
      match combineDomains d fromDom with
      | Except.error msg => Except.error msg
      | Except.ok d2 => Except.ok (some d2)

/-- Processing of one incoming edge of the vertex being assigned, mirroring
the edge loop body of `processDomains`: skip cut (zero-weight) edges, skip
sources whose kind does not matter for sensitivity, read the source's current
domain (reading an unset domain dereferences a null pointer, modelled as a
fatal error), run the assertion checks, fold in external domains of variable
sources, then fold the result into the working domain. -/
def processEdge (ext : Nat → List SenTree) (infos : List VtxInfo)
    (doms : List (Option Dom)) (acc : Option Dom) (e : Nat × Nat) :
    Except String (Option Dom) :=
  if e.2 = 0 then Except.ok acc
  else
    match infos[e.1]? with
    | none => Except.error "edge from vertex outside the graph"
    | some info =>
      if !info.domainMatters then Except.ok acc
      else
        match (doms[e.1]?).getD none with
        | none => Except.error "predecessor domain not yet resolved"
        | some fromDom0 =>
          match checkFromDomain fromDom0 with
          | Except.error msg => Except.error msg
          | Except.ok _ =>
            match (if info.kind.isVar
                   then foldExternal fromDom0 (ext info.vscp)
                   else Except.ok fromDom0) with
            | Except.error msg => Except.error msg
            | Except.ok fromDom => mergeInput acc fromDom

/-- The edge loop of `processDomains`: fold all incoming edges into the
working domain, starting from the hybrid seed (or unset). -/
def foldInputs (ext : Nat → List SenTree) (infos : List VtxInfo)
    (doms : List (Option Dom)) : Option Dom → List (Nat × Nat) →
    Except String (Option Dom)
  | acc, [] => Except.ok acc
  | acc, e :: rest =>
    match processEdge ext infos doms acc e with
    | Except.error msg => Except.error msg
    | Except.ok acc2 => foldInputs ext infos doms acc2 rest

/-- The initial working domain of a vertex: for logic vertices the explicit
hybrid sensitivity, otherwise unset. -/
def initialSeed (v : OrderVertex) : Option Dom :=
  match v.kind, v.hybrid with
  | VtxKind.logic, some h => some (Dom.tree h)
  | _, _ => none

/-- The fatal `UASSERT(domainp->backp())` on a present hybrid seed. -/
def checkHybrid (v : OrderVertex) : Except String (Option Dom) :=
  match initialSeed v with
  | none => Except.ok none
  | some Dom.del => Except.error "Hybrid senTree should have backp"
  | some (Dom.tree h) =>
    if h.backp then Except.ok (some (Dom.tree h))
    else Except.error "Hybrid senTree should have backp"

/-- The body of the vertex loop of `processDomains` for the vertex at `idx`:
skip vertices whose domain is already set; seed from the hybrid sensitivity;
fold all incoming edges; if the working domain is still unset, assign the
delete sentinel and record logic vertices in the dead-logic list; otherwise
canonicalize with `simplifyDomain` and assign.  Passing the sentinel to
`simplifyDomain` would dereference it, modelled as a fatal error. -/
def processVertex (ext : Nat → List SenTree) (infos : List VtxInfo)
    (st : PassState) (idx : Nat) (v : OrderVertex) : Except String PassState :=
  if ((st.doms[idx]?).getD none).isSome then Except.ok st
  else
    match checkHybrid v with
    | Except.error msg => Except.error msg
    | Except.ok dom0 =>
      match foldInputs ext infos st.doms dom0 v.inEdges with
      | Except.error msg => Except.error msg
      | Except.ok none =>
        Except.ok { doms := st.doms.set idx (some Dom.del),
                    toDelete := if v.kind = VtxKind.logic
                                then st.toDelete ++ [idx] else st.toDelete }
      | Except.ok (some Dom.del) =>
        Except.error "delete sentinel dereferenced by simplifyDomain"
      | Except.ok (some (Dom.tree t)) =>
        Except.ok { doms := st.doms.set idx (some (Dom.tree (simplifyDomain t))),
                    toDelete := st.toDelete }

/-- The vertex loop of `processDomains`, processing vertices in list order. -/
def runPassGo (ext : Nat → List SenTree) (infos : List VtxInfo) :
    List OrderVertex → Nat → PassState → Except String PassState
  | [], _, st => Except.ok st
  | v :: rest, idx, st =>
    match processVertex ext infos st idx v with
    | Except.error msg => Except.error msg
    | Except.ok st2 => runPassGo ext infos rest (idx + 1) st2

/-- The whole `processDomains` pass over a vertex list, starting from the
domains the vertices arrive with and an empty dead-logic list. -/
def runPass (ext : Nat → List SenTree) (vs : List OrderVertex) :
    Except String PassState :=
  runPassGo ext (vs.map OrderVertex.info) vs 0
    { doms := vs.map OrderVertex.initDomain, toDelete := [] }

/-- The defensive re-check of the deletion loop in the constructor: every
recorded vertex must still hold the delete sentinel (`UASSERT_OBJ`). -/
def checkDeleted (doms : List (Option Dom)) : List Nat → Except String Unit
  | [] => Except.ok ()
  | i :: rest =>
    if (doms[i]?).getD none = some Dom.del then checkDeleted doms rest
    else Except.error "Should have been marked as deleted"

/-- Removal of the recorded dead vertices (`unlinkDelete`): each recorded
position becomes a hole, and every surviving vertex loses its edges from
removed vertices.  Positions are kept stable so vertices retain identity. -/
def deleteDeadGo (dead : List Nat) : List OrderVertex → Nat → List (Option OrderVertex)
  | [], _ => []
  | v :: rest, i =>
    (if dead.contains i then none
     else some { v with inEdges := v.inEdges.filter (fun q => !dead.contains q.1) })
      :: deleteDeadGo dead rest (i + 1)

/-- Graph after the deletion loop removed the recorded dead vertices. -/
def deleteDead (vs : List OrderVertex) (dead : List Nat) : List (Option OrderVertex) :=
  deleteDeadGo dead vs 0

/-- Result of the full `V3OrderProcessDomains` constructor: the final domain
fields, the recorded dead-logic list, the logic contents detached and deleted
with them, and the graph after their removal. -/
structure ApplyResult where
  doms : List (Option Dom)
  deleted : List Nat
  deletedNodes : List Nat
  graph : List (Option OrderVertex)
deriving DecidableEq, Repr

/-- The full `V3OrderProcessDomains` run: the pass first completes over the
whole graph, and only then is each recorded dead vertex re-checked, its logic
content deleted, and the vertex removed with its edges. -/
def applyPass (ext : Nat → List SenTree) (vs : List OrderVertex) :
    Except String ApplyResult :=
  match runPass ext vs with
  | Except.error msg => Except.error msg
  | Except.ok st =>
    match checkDeleted st.doms st.toDelete with
    | Except.error msg => Except.error msg
    | Except.ok _ =>
      Except.ok { doms := st.doms,
                  deleted := st.toDelete,
                  deletedNodes := st.toDelete.filterMap
                    (fun i => (vs[i]?).map OrderVertex.nodep),
                  graph := deleteDead vs st.toDelete }

/-- Display name of a variable scope, modelling `AstVarScope::prettyName`. -/
def prettyName (v : OrderVertex) : String :=
  "s" ++ toString v.vscp

/-- Name of a variable vertex in the edge report, with the phase tag added for
pre, post and ordering-phase variants as in `processEdgeReport`. -/
def vertexName (v : OrderVertex) : String :=
  prettyName v ++
    (match v.kind with
     | VtxKind.varPre => " \x7bPRE\x7d"
     | VtxKind.varPost => " \x7bPOST\x7d"
     | VtxKind.varPord => " \x7bPORD\x7d"
     | _ => "")

/-- Left-justified padding to a field width, modelling `std::setw(50)` with
`std::ios::left`. -/
def padTo (s : String) (n : Nat) : String :=
  s ++ String.mk (List.replicate (n - s.length) ' ')

/-- Rendering of one sensitivity item; `V3EmitV::verilogForTree` is an
external collaborator, so the rendering is modelled abstractly but
injectively. -/
def renderSenItem (i : SenItem) : String :=
  (match i.edge with
   | SenEdge.pos => "posedge s"
   | SenEdge.neg => "negedge s"
   | SenEdge.combo => "combo s") ++ toString i.signal

/-- Rendering of the items of a domain joined by " or ", as the report loop
does (no separator before the first item). -/
def renderSenses : List SenItem → String
  | [] => ""
  | [i] => renderSenItem i
  | i :: rest => renderSenItem i ++ " or " ++ renderSenses rest

/-- Leading part of a report line: indentation, the variable-scope identity
(`cvtToHex(vscp)`), and the padded name. -/
def lineHead (v : OrderVertex) : String :=
  "  " ++ toString v.vscp ++ " " ++ padTo (vertexName v) 50 ++ " "

/-- Rendering of an assigned domain in the report: the sentinel renders as
DELETED, a real tree as the disjunction of its items. -/
def renderDomain (d : Dom) : String :=
  match d with
  | Dom.del => "DELETED"
  | Dom.tree t => renderSenses t.senses

/-- One line of the edge report for a variable vertex. -/
def reportLine (v : OrderVertex) (d : Dom) : String :=
  lineHead v ++ renderDomain d

/-- The unsorted report: one line per variable vertex, in graph order, each
paired with the domain its vertex holds after the pass. -/
def reportLines : List OrderVertex → List Dom → List String
  | v :: vs, d :: ds =>
    (if v.kind.isVar then [reportLine v d] else []) ++ reportLines vs ds
  | _, _ => []

/-- The full `processEdgeReport` line list: the collected lines sorted
lexicographically (`stable_sort` on `std::string` order) before writing. -/
def processEdgeReport (vs : List OrderVertex) (doms : List Dom) : List String :=
  (reportLines vs doms).insertionSort (fun a b => a ≤ b)

theorem constifyExpensiveEdit_perm_eq {l1 l2 : List SenItem} (h : l1.Perm l2) :
    constifyExpensiveEdit l1 = constifyExpensiveEdit l2 := by
  unfold constifyExpensiveEdit
  have hp : (l1.insertionSort senLE).Perm (l2.insertionSort senLE) :=
    ((List.perm_insertionSort senLE l1).trans h).trans
      (List.perm_insertionSort senLE l2).symm
  rw [List.eq_of_perm_of_sorted hp (List.sorted_insertionSort senLE l1)
    (List.sorted_insertionSort senLE l2)]

theorem combine_ok_del {a b : Dom} (h : combineDomains a b = Except.ok Dom.del) :
    a = Dom.del ∧ b = Dom.del := by
  cases a with
  | del =>
    cases b with
    | del => exact ⟨rfl, rfl⟩
    | tree t => simp [combineDomains] at h
  | tree a2 =>
    cases b with
    | del => simp [combineDomains] at h
    | tree b2 =>
      by_cases hab : Dom.tree a2 = Dom.tree b2
      · simp [combineDomains, hab] at h
      · simp [combineDomains, hab] at h

theorem mergeInput_ok_ne_del {acc : Option Dom} {fromDom : Dom} {acc2 : Option Dom}
    (ha : acc ≠ some Dom.del) (h : mergeInput acc fromDom = Except.ok acc2) :
    acc2 ≠ some Dom.del := by
  unfold mergeInput at h
  split at h
  · cases h; exact ha
  · rename_i hf
    split at h
    · cases h
      intro hc
      exact hf (by injection hc)
    · rename_i d
      split at h
      · cases h
      · rename_i d2 hcd
        cases h
        intro hc
        have hd2 : d2 = Dom.del := by injection hc
        have hcomb := combine_ok_del (hd2 ▸ hcd)
        exact ha (by rw [hcomb.1])

theorem processEdge_ok_ne_del (ext : Nat → List SenTree) (infos : List VtxInfo)
    (doms : List (Option Dom)) {acc : Option Dom} {e : Nat × Nat} {acc2 : Option Dom}
    (ha : acc ≠ some Dom.del) (h : processEdge ext infos doms acc e = Except.ok acc2) :
    acc2 ≠ some Dom.del := by
  unfold processEdge at h
  split at h
  · cases h; exact ha
  · split at h
    · cases h
    · split at h
      · cases h; exact ha
      · split at h
        · cases h
        · split at h
          · cases h
          · split at h
            · cases h
            · exact mergeInput_ok_ne_del ha h

/-- Claim C3: `combineDomains` with the sentinel as first argument returns the
second argument for every domain, and a non-sentinel first argument with a
sentinel second argument (the two being different) is a fatal invariant
failure: the call returns an error, not a result. -/
theorem claim_C3 :
    (∀ d : Dom, combineDomains Dom.del d = Except.ok d) ∧
    (∀ a b : Dom, a ≠ Dom.del → b = Dom.del → a ≠ b →
      combineDomains a b = Except.error "bp should not be delete domain") := by
  constructor
  · intro d
    cases d with
    | del => rfl
    | tree t => simp [combineDomains]
  · intro a b ha hb hab
    subst hb
    cases a with
    | del => exact absurd rfl ha
    | tree t => simp [combineDomains, hab]

theorem claim_C3_witness :
    combineDomains Dom.del (Dom.tree ⟨[], false, true⟩)
        = Except.ok (Dom.tree ⟨[], false, true⟩) ∧
    combineDomains (Dom.tree ⟨[], false, true⟩) Dom.del
        = Except.error "bp should not be delete domain" :=
  ⟨claim_C3.1 (Dom.tree ⟨[], false, true⟩),
   claim_C3.2 (Dom.tree ⟨[], false, true⟩) Dom.del (by decide) rfl (by decide)⟩

/-- Claim C4: merging the same pair of domains in opposite input orders, each
followed by canonicalization, yields the same canonical domain (object
identity being structural equality of interned trees). -/
theorem claim_C4 (a b : SenTree) : mergeCanon a b = mergeCanon b a := by
  by_cases hab : a = b
  · rw [hab]
  · have h1 : ¬(Dom.tree a = Dom.tree b) := by simp [hab]
    have h2 : ¬(Dom.tree b = Dom.tree a) := by
      intro hc
      injection hc with h3
      exact hab h3.symm
    simp only [mergeCanon, combineDomains, if_neg h1, if_neg h2]
    simp only [canonicalize, simplifyDomain]
    simp only [Bool.false_eq_true, if_false]
    rw [constifyExpensiveEdit_perm_eq List.perm_append_comm]

theorem foldInputs_ok_ne_del (ext : Nat → List SenTree) (infos : List VtxInfo)
    (doms : List (Option Dom)) :
    ∀ (edges : List (Nat × Nat)) (acc acc2 : Option Dom),
    acc ≠ some Dom.del → foldInputs ext infos doms acc edges = Except.ok acc2 →
    acc2 ≠ some Dom.del
  | [], acc, acc2, ha, h => by cases h; exact ha
  | e :: rest, acc, acc2, ha, h => by
    rw [foldInputs] at h
    cases hpe : processEdge ext infos doms acc e with
    | error msg => rw [hpe] at h; cases h
    | ok acc1 =>
      rw [hpe] at h
      exact foldInputs_ok_ne_del ext infos doms rest acc1 acc2
        (processEdge_ok_ne_del ext infos doms ha hpe) h

/-- Claim C9: `combineDomains` returns the delete sentinel only when both of
its arguments are the sentinel, and consequently neither one edge step nor the
whole edge loop ever turns a working domain that holds a real domain back into
the sentinel. -/
theorem claim_C9 :
    (∀ a b : Dom, combineDomains a b = Except.ok Dom.del →
      a = Dom.del ∧ b = Dom.del) ∧
    (∀ (ext : Nat → List SenTree) (infos : List VtxInfo) (doms : List (Option Dom))
      (acc : Option Dom) (e : Nat × Nat) (acc2 : Option Dom),
      acc ≠ some Dom.del → processEdge ext infos doms acc e = Except.ok acc2 →
      acc2 ≠ some Dom.del) ∧
    (∀ (ext : Nat → List SenTree) (infos : List VtxInfo) (doms : List (Option Dom))
      (edges : List (Nat × Nat)) (acc acc2 : Option Dom),
      acc ≠ some Dom.del → foldInputs ext infos doms acc edges = Except.ok acc2 →
      acc2 ≠ some Dom.del) :=
  ⟨fun _ _ h => combine_ok_del h,
   fun ext infos doms _ _ _ ha h => processEdge_ok_ne_del ext infos doms ha h,
   fun ext infos doms edges acc acc2 ha h =>
     foldInputs_ok_ne_del ext infos doms edges acc acc2 ha h⟩

theorem claim_C9_witness :
    (Dom.del = Dom.del ∧ Dom.del = Dom.del) ∧
    some (Dom.tree ⟨[⟨SenEdge.pos, 0⟩], false, true⟩) ≠ some Dom.del ∧
    some (Dom.tree ⟨[⟨SenEdge.neg, 1⟩], false, true⟩) ≠ some Dom.del :=
  ⟨claim_C9.1 Dom.del Dom.del rfl,
   claim_C9.2.1 (fun _ => []) [⟨VtxKind.varStd, true, 0⟩]
     [some (Dom.tree ⟨[⟨SenEdge.pos, 0⟩], false, true⟩)] none (0, 1)
     (some (Dom.tree ⟨[⟨SenEdge.pos, 0⟩], false, true⟩)) (by decide) rfl,
   claim_C9.2.2 (fun _ => []) [] [] []
     (some (Dom.tree ⟨[⟨SenEdge.neg, 1⟩], false, true⟩))
     (some (Dom.tree ⟨[⟨SenEdge.neg, 1⟩], false, true⟩)) (by decide) rfl⟩

/-- Claim C7: reading a predecessor's resolved domain that is not the sentinel
yet has a combinational term, or being handed an external domain that has a
combinational term or no back pointer, makes the edge loop fail immediately
with a fatal assertion error; no result is produced. -/
theorem claim_C7 :
    (∀ (ext : Nat → List SenTree) (infos : List VtxInfo) (doms : List (Option Dom))
      (acc : Option Dom) (j w : Nat) (info : VtxInfo) (t : SenTree),
      w ≠ 0 → infos[j]? = some info → info.domainMatters = true →
      (doms[j]?).getD none = some (Dom.tree t) → t.hasCombo = true →
      processEdge ext infos doms acc (j, w)
        = Except.error "There should be no need for combinational domains") ∧
    (∀ (ext : Nat → List SenTree) (infos : List VtxInfo) (doms : List (Option Dom))
      (acc : Option Dom) (j w : Nat) (info : VtxInfo) (x : SenTree) (rest : List SenTree),
      w ≠ 0 → infos[j]? = some info → info.domainMatters = true →
      (doms[j]?).getD none = some Dom.del → info.kind.isVar = true →
      ext info.vscp = x :: rest → x.hasCombo = true →
      processEdge ext infos doms acc (j, w)
        = Except.error "There should be no need for combinational domains") ∧
    (∀ (ext : Nat → List SenTree) (infos : List VtxInfo) (doms : List (Option Dom))
      (acc : Option Dom) (j w : Nat) (info : VtxInfo) (x : SenTree) (rest : List SenTree),
      w ≠ 0 → infos[j]? = some info → info.domainMatters = true →
      (doms[j]?).getD none = some Dom.del → info.kind.isVar = true →
      ext info.vscp = x :: rest → x.hasCombo = false → x.backp = false →
      processEdge ext infos doms acc (j, w)
        = Except.error "External SenTree should have backp") := by
  refine ⟨?_, ?_, ?_⟩
  · intro ext infos doms acc j w info t hw hinfo hdm hdom hcombo
    simp [processEdge, checkFromDomain, hw, hinfo, hdm, hdom, hcombo]
  · intro ext infos doms acc j w info x rest hw hinfo hdm hdom hvar hext hxc
    simp [processEdge, checkFromDomain, foldExternal, checkExternal, hw, hinfo, hdm,
      hdom, hvar, hext, hxc]
  · intro ext infos doms acc j w info x rest hw hinfo hdm hdom hvar hext hxc hxb
    simp [processEdge, checkFromDomain, foldExternal, checkExternal, hw, hinfo, hdm,
      hdom, hvar, hext, hxc, hxb]

theorem claim_C7_witness :
    processEdge (fun _ => []) [⟨VtxKind.varStd, true, 0⟩]
        [some (Dom.tree ⟨[⟨SenEdge.combo, 0⟩], false, true⟩)] none (0, 1)
      = Except.error "There should be no need for combinational domains" ∧
    processEdge (fun _ => [⟨[⟨SenEdge.combo, 1⟩], false, true⟩])
        [⟨VtxKind.varStd, true, 0⟩] [some Dom.del] none (0, 1)
      = Except.error "There should be no need for combinational domains" ∧
    processEdge (fun _ => [⟨[⟨SenEdge.pos, 1⟩], false, false⟩])
        [⟨VtxKind.varStd, true, 0⟩] [some Dom.del] none (0, 1)
      = Except.error "External SenTree should have backp" :=
  ⟨claim_C7.1 (fun _ => []) [⟨VtxKind.varStd, true, 0⟩]
      [some (Dom.tree ⟨[⟨SenEdge.combo, 0⟩], false, true⟩)] none 0 1
      ⟨VtxKind.varStd, true, 0⟩ ⟨[⟨SenEdge.combo, 0⟩], false, true⟩
      (by decide) rfl rfl rfl rfl,
   claim_C7.2.1 (fun _ => [⟨[⟨SenEdge.combo, 1⟩], false, true⟩])
      [⟨VtxKind.varStd, true, 0⟩] [some Dom.del] none 0 1
      ⟨VtxKind.varStd, true, 0⟩ ⟨[⟨SenEdge.combo, 1⟩], false, true⟩ []
      (by decide) rfl rfl rfl rfl rfl rfl,
   claim_C7.2.2 (fun _ => [⟨[⟨SenEdge.pos, 1⟩], false, false⟩])
      [⟨VtxKind.varStd, true, 0⟩] [some Dom.del] none 0 1
      ⟨VtxKind.varStd, true, 0⟩ ⟨[⟨SenEdge.pos, 1⟩], false, false⟩ []
      (by decide) rfl rfl rfl rfl rfl rfl rfl⟩

/-- Claim C2: a vertex with no pre-assigned domain, no hybrid seed, and
exactly one contributing input, a non-cut edge from a domain-mattering
predecessor whose domain is a canonical tree with no external domains, is
assigned that very canonical tree unchanged: `simplifyDomain` is a no-op on
it, and its `multi` flag stays `false`. -/
theorem claim_C2 (ext : Nat → List SenTree) (infos : List VtxInfo) (st : PassState)
    (idx : Nat) (v : OrderVertex) (j w : Nat) (info : VtxInfo) (t : SenTree)
    (hunset : (st.doms[idx]?).getD none = none)
    (hseed : initialSeed v = none)
    (hedges : v.inEdges = [(j, w)])
    (hw : w ≠ 0)
    (hinfo : infos[j]? = some info)
    (hdm : info.domainMatters = true)
    (hdom : (st.doms[j]?).getD none = some (Dom.tree t))
    (hcombo : t.hasCombo = false)
    (hback : t.backp = true)
    (hext : info.kind.isVar = true → ext info.vscp = [])
    (hmulti : t.multi = false) :
    processVertex ext infos st idx v
      = Except.ok { doms := st.doms.set idx (some (Dom.tree t)),
                    toDelete := st.toDelete }
    ∧ simplifyDomain t = t ∧ t.multi = false := by
  have hpe : processEdge ext infos st.doms none (j, w) = Except.ok (some (Dom.tree t)) := by
    cases hvar : info.kind.isVar with
    | true =>
      simp [processEdge, checkFromDomain, mergeInput, foldExternal, hw, hinfo, hdm,
        hdom, hcombo, hback, hvar, hext hvar]
    | false =>
      simp [processEdge, checkFromDomain, mergeInput, hw, hinfo, hdm, hdom, hcombo,
        hback, hvar]
  have hfold : foldInputs ext infos st.doms none v.inEdges
      = Except.ok (some (Dom.tree t)) := by
    rw [hedges]
    simp [foldInputs, hpe]
  refine ⟨?_, by simp [simplifyDomain, hback], hmulti⟩
  simp [processVertex, hunset, checkHybrid, hseed, hfold, simplifyDomain, hback]

theorem claim_C2_witness :
    processVertex (fun _ => []) [⟨VtxKind.varStd, true, 5⟩, ⟨VtxKind.logic, true, 0⟩]
        ⟨[some (Dom.tree ⟨[⟨SenEdge.pos, 3⟩], false, true⟩), none], []⟩ 1
        ⟨VtxKind.logic, true, none, none, 0, 0, [(0, 1)]⟩
      = Except.ok ⟨[some (Dom.tree ⟨[⟨SenEdge.pos, 3⟩], false, true⟩),
                    some (Dom.tree ⟨[⟨SenEdge.pos, 3⟩], false, true⟩)], []⟩
    ∧ simplifyDomain ⟨[⟨SenEdge.pos, 3⟩], false, true⟩ = ⟨[⟨SenEdge.pos, 3⟩], false, true⟩
    ∧ SenTree.multi ⟨[⟨SenEdge.pos, 3⟩], false, true⟩ = false :=
  claim_C2 (fun _ => []) [⟨VtxKind.varStd, true, 5⟩, ⟨VtxKind.logic, true, 0⟩]
    ⟨[some (Dom.tree ⟨[⟨SenEdge.pos, 3⟩], false, true⟩), none], []⟩ 1
    ⟨VtxKind.logic, true, none, none, 0, 0, [(0, 1)]⟩ 0 1 ⟨VtxKind.varStd, true, 5⟩
    ⟨[⟨SenEdge.pos, 3⟩], false, true⟩ rfl rfl rfl (by decide) rfl rfl rfl rfl rfl
    (fun _ => rfl) rfl

theorem foldInputs_skip_cut (ext : Nat → List SenTree) (infos : List VtxInfo)
    (doms : List (Option Dom)) (j : Nat) :
    ∀ (pre post : List (Nat × Nat)) (acc : Option Dom),
    foldInputs ext infos doms acc (pre ++ (j, 0) :: post)
      = foldInputs ext infos doms acc (pre ++ post)
  | [], post, acc => by simp [foldInputs, processEdge]
  | e :: pre, post, acc => by
    simp only [List.cons_append, foldInputs]
    cases processEdge ext infos doms acc e with
    | error msg => rfl
    | ok acc2 => exact foldInputs_skip_cut ext infos doms j pre post acc2

theorem processVertex_skip_cut (ext : Nat → List SenTree) (infos : List VtxInfo)
    (st : PassState) (idx : Nat) (v : OrderVertex) (j : Nat)
    (pre post : List (Nat × Nat)) (he : v.inEdges = pre ++ (j, 0) :: post) :
    processVertex ext infos st idx v
      = processVertex ext infos st idx { v with inEdges := pre ++ post } := by
  cases v with
  | mk k dm hy init vsc np es =>
    simp only at he
    subst he
    simp only [processVertex, checkHybrid, initialSeed, foldInputs_skip_cut]

theorem set_self_of_getElem? {α : Type} :
    ∀ (l : List α) (i : Nat) (x : α), l[i]? = some x → l.set i x = l
  | [], i, x, h => by simp at h
  | a :: l, 0, x, h => by
    simp at h
    simp [List.set, h]
  | a :: l, i + 1, x, h => by
    simp at h
    simp [List.set, set_self_of_getElem? l i x h]

theorem runPassGo_set_congr (ext : Nat → List SenTree) (infos : List VtxInfo) :
    ∀ (vs : List OrderVertex) (i : Nat) (v v2 : OrderVertex) (idx : Nat) (st : PassState),
    vs[i]? = some v →
    (∀ (st2 : PassState) (idx2 : Nat),
      processVertex ext infos st2 idx2 v = processVertex ext infos st2 idx2 v2) →
    runPassGo ext infos vs idx st = runPassGo ext infos (vs.set i v2) idx st
  | [], i, v, v2, idx, st, hv, _ => by simp at hv
  | w :: rest, 0, v, v2, idx, st, hv, hpv => by
    simp at hv
    subst hv
    simp only [List.set, runPassGo, hpv st idx]
  | w :: rest, i + 1, v, v2, idx, st, hv, hpv => by
    simp at hv
    simp only [List.set, runPassGo]
    cases processVertex ext infos st idx w with
    | error msg => rfl
    | ok st2 => exact runPassGo_set_congr ext infos rest i v v2 (idx + 1) st2 hv hpv

/-- Claim C5: a zero-weight (cut) incoming edge never influences the result of
the pass: running the pass on a graph with such an edge present gives exactly
the same outcome as running it on the graph with that edge absent. -/
theorem claim_C5 (ext : Nat → List SenTree) (vs : List OrderVertex) (i j : Nat)
    (v : OrderVertex) (pre post : List (Nat × Nat))
    (hv : vs[i]? = some v) (he : v.inEdges = pre ++ (j, 0) :: post) :
    runPass ext vs = runPass ext (vs.set i { v with inEdges := pre ++ post }) := by
  unfold runPass
  have hinfo : (vs.set i { v with inEdges := pre ++ post }).map OrderVertex.info
      = vs.map OrderVertex.info := by
    rw [List.map_set]
    exact set_self_of_getElem? (vs.map OrderVertex.info) i v.info
      (by rw [List.getElem?_map, hv]; rfl)
  have hinit : (vs.set i { v with inEdges := pre ++ post }).map OrderVertex.initDomain
      = vs.map OrderVertex.initDomain := by
    rw [List.map_set]
    exact set_self_of_getElem? (vs.map OrderVertex.initDomain) i v.initDomain
      (by rw [List.getElem?_map, hv]; rfl)
  rw [hinfo, hinit]
  exact runPassGo_set_congr ext (vs.map OrderVertex.info) vs i v
    { v with inEdges := pre ++ post } 0
    { doms := vs.map OrderVertex.initDomain, toDelete := [] } hv
    (fun st2 idx2 => processVertex_skip_cut ext (vs.map OrderVertex.info)
      st2 idx2 v j pre post he)

theorem claim_C5_witness :
    runPass (fun _ => [])
        [⟨VtxKind.varStd, true, none, some (Dom.tree ⟨[⟨SenEdge.pos, 0⟩], false, true⟩),
          0, 0, []⟩,
         ⟨VtxKind.logic, true, none, none, 0, 7, [(0, 0)]⟩]
      = runPass (fun _ => [])
        [⟨VtxKind.varStd, true, none, some (Dom.tree ⟨[⟨SenEdge.pos, 0⟩], false, true⟩),
          0, 0, []⟩,
         ⟨VtxKind.logic, true, none, none, 0, 7, []⟩] :=
  claim_C5 (fun _ => [])
    [⟨VtxKind.varStd, true, none, some (Dom.tree ⟨[⟨SenEdge.pos, 0⟩], false, true⟩),
      0, 0, []⟩,
     ⟨VtxKind.logic, true, none, none, 0, 7, [(0, 0)]⟩]
    1 0 ⟨VtxKind.logic, true, none, none, 0, 7, [(0, 0)]⟩ [] [] rfl rfl

theorem getElem?_isSome_elim {l : List (Option Dom)} {idx : Nat}
    (h : ((l[idx]?).getD none).isSome = true) : ∃ d, l[idx]? = some (some d) := by
  cases hl : l[idx]? with
  | none => rw [hl] at h; simp at h
  | some o =>
    cases o with
    | none => rw [hl] at h; simp at h
    | some d => exact ⟨d, rfl⟩

theorem processVertex_inv (ext : Nat → List SenTree) (infos : List VtxInfo)
    {st : PassState} {idx : Nat} {v : OrderVertex} {st2 : PassState}
    (h : processVertex ext infos st idx v = Except.ok st2) :
    st2.doms.length = st.doms.length
    ∧ (∀ (k : Nat) (d : Dom), st.doms[k]? = some (some d) → st2.doms[k]? = some (some d))
    ∧ (∀ n, n ∈ st2.toDelete → n ∈ st.toDelete ∨ (n = idx ∧ v.kind = VtxKind.logic))
    ∧ (idx < st.doms.length → ∃ d, st2.doms[idx]? = some (some d)) := by
  unfold processVertex at h
  split at h
  · rename_i hset
    cases h
    exact ⟨rfl, fun k d hk => hk, fun n hn => Or.inl hn,
      fun _ => getElem?_isSome_elim hset⟩
  · rename_i hunset
    split at h
    · cases h
    · split at h
      · cases h
      · cases h
        refine ⟨List.length_set st.doms idx _ ▸ rfl, ?_, ?_, ?_⟩
        · intro k d hk
          by_cases hki : k = idx
          · subst hki
            have hcontra : ((st.doms[k]?).getD none).isSome = true := by rw [hk]; rfl
            exact absurd hcontra hunset
          · simpa [List.getElem?_set_ne (fun hc => hki hc.symm)] using hk
        · intro n hn
          simp only at hn
          by_cases hvk : v.kind = VtxKind.logic
          · rw [if_pos hvk] at hn
            rcases List.mem_append.1 hn with h1 | h2
            · exact Or.inl h1
            · exact Or.inr ⟨by simpa using h2, hvk⟩
          · rw [if_neg hvk] at hn
            exact Or.inl hn
        · intro hlt
          exact ⟨Dom.del, by simpa using List.getElem?_set_eq_of_lt (some Dom.del) hlt⟩
      · cases h
      · rename_i t _
        cases h
        refine ⟨List.length_set st.doms idx _ ▸ rfl, ?_, fun n hn => Or.inl hn, ?_⟩
        · intro k d hk
          by_cases hki : k = idx
          · subst hki
            have hcontra : ((st.doms[k]?).getD none).isSome = true := by rw [hk]; rfl
            exact absurd hcontra hunset
          · simpa [List.getElem?_set_ne (fun hc => hki hc.symm)] using hk
        · intro hlt
          exact ⟨Dom.tree (simplifyDomain t),
            by simpa using List.getElem?_set_eq_of_lt (some (Dom.tree (simplifyDomain t))) hlt⟩

theorem runPassGo_inv (ext : Nat → List SenTree) (infos : List VtxInfo) :
    ∀ (vs : List OrderVertex) (idx : Nat) (st st2 : PassState),
    runPassGo ext infos vs idx st = Except.ok st2 →
    st2.doms.length = st.doms.length
    ∧ (∀ (k : Nat) (d : Dom), st.doms[k]? = some (some d) → st2.doms[k]? = some (some d))
    ∧ (∀ n, n ∈ st2.toDelete → n ∈ st.toDelete
        ∨ ∃ k v, vs[k]? = some v ∧ n = idx + k ∧ v.kind = VtxKind.logic)
    ∧ (∀ (k : Nat) (v : OrderVertex), vs[k]? = some v → idx + k < st.doms.length →
        ∃ d, st2.doms[idx + k]? = some (some d))
  | [], idx, st, st2, h => by
    cases h
    exact ⟨rfl, fun k d hk => hk, fun n hn => Or.inl hn, fun k v hv => by simp at hv⟩
  | v :: rest, idx, st, st2, h => by
    rw [runPassGo] at h
    cases hpv : processVertex ext infos st idx v with
    | error msg => rw [hpv] at h; cases h
    | ok st1 =>
      rw [hpv] at h
      obtain ⟨hlen1, hpres1, hdel1, hown1⟩ := processVertex_inv ext infos hpv
      obtain ⟨hlen2, hpres2, hdel2, hown2⟩ := runPassGo_inv ext infos rest (idx + 1) st1 st2 h
      refine ⟨hlen2.trans hlen1, fun k d hk => hpres2 k d (hpres1 k d hk), ?_, ?_⟩
      · intro n hn
        rcases hdel2 n hn with h1 | ⟨k, w, hw, hnk, hwk⟩
        · rcases hdel1 n h1 with h2 | ⟨h2, h3⟩
          · exact Or.inl h2
          · exact Or.inr ⟨0, v, by simp, by omega, h3⟩
        · exact Or.inr ⟨k + 1, w, by simpa using hw, by omega, hwk⟩
      · intro k w hw hlt
        cases k with
        | zero =>
          simp at hw
          subst hw
          obtain ⟨d, hd⟩ := hown1 (by simpa using hlt)
          have := hpres2 idx d (by simpa using hd)
          exact ⟨d, by simpa using this⟩
        | succ k2 =>
          simp at hw
          have hlt2 : (idx + 1) + k2 < st1.doms.length := by
            rw [hlen1]; omega
          obtain ⟨d, hd⟩ := hown2 k2 w hw hlt2
          exact ⟨d, by
            have hx : (idx + 1) + k2 = idx + (k2 + 1) := by omega
            rw [← hx]; exact hd⟩

theorem simplifyDomain_backp (t : SenTree) : (simplifyDomain t).backp = true := by
  unfold simplifyDomain
  split
  · rename_i h
    exact h
  · rfl

theorem processVertex_new_entries (ext : Nat → List SenTree) (infos : List VtxInfo)
    {st : PassState} {idx : Nat} {v : OrderVertex} {st2 : PassState}
    (h : processVertex ext infos st idx v = Except.ok st2) :
    ∀ (k : Nat) (d : Dom), st2.doms[k]? = some (some d) →
      st.doms[k]? = some (some d) ∨ d = Dom.del
      ∨ ∃ t, d = Dom.tree t ∧ t.backp = true := by
  unfold processVertex at h
  split at h
  · cases h
    exact fun k d hk => Or.inl hk
  · split at h
    · cases h
    · split at h
      · cases h
      · cases h
        intro k d hk
        by_cases hki : k = idx
        · subst hki
          rcases Nat.lt_or_ge k st.doms.length with hlt | hge
          · rw [List.getElem?_set_eq_of_lt (some Dom.del) hlt] at hk
            have hd : d = Dom.del := by
              injection hk with h1
              injection h1 with h2
              exact h2.symm
            exact Or.inr (Or.inl hd)
          · rw [List.getElem?_eq_none (by simpa using hge)] at hk
            cases hk
        · rw [List.getElem?_set_ne (fun hc => hki hc.symm)] at hk
          exact Or.inl hk
      · cases h
      · rename_i t _
        cases h
        intro k d hk
        by_cases hki : k = idx
        · subst hki
          rcases Nat.lt_or_ge k st.doms.length with hlt | hge
          · rw [List.getElem?_set_eq_of_lt (some (Dom.tree (simplifyDomain t))) hlt] at hk
            have hd : d = Dom.tree (simplifyDomain t) := by
              injection hk with h1
              injection h1 with h2
              exact h2.symm
            exact Or.inr (Or.inr ⟨simplifyDomain t, hd, simplifyDomain_backp t⟩)
          · rw [List.getElem?_eq_none (by simpa using hge)] at hk
            cases hk
        · rw [List.getElem?_set_ne (fun hc => hki hc.symm)] at hk
          exact Or.inl hk

theorem runPassGo_new_entries (ext : Nat → List SenTree) (infos : List VtxInfo) :
    ∀ (vs : List OrderVertex) (idx : Nat) (st st2 : PassState),
    runPassGo ext infos vs idx st = Except.ok st2 →
    ∀ (k : Nat) (d : Dom), st2.doms[k]? = some (some d) →
      st.doms[k]? = some (some d) ∨ d = Dom.del
      ∨ ∃ t, d = Dom.tree t ∧ t.backp = true
  | [], idx, st, st2, h => by
    cases h
    exact fun k d hk => Or.inl hk
  | v :: rest, idx, st, st2, h => by
    rw [runPassGo] at h
    cases hpv : processVertex ext infos st idx v with
    | error msg => rw [hpv] at h; cases h
    | ok st1 =>
      rw [hpv] at h
      intro k d hk
      rcases runPassGo_new_entries ext infos rest (idx + 1) st1 st2 h k d hk with h1 | h2
      · exact processVertex_new_entries ext infos hpv k d h1
      · exact Or.inr h2

/-- Claim C6: the pass writes each domain field at most once and only when it
was empty: after a successful run every vertex has a non-empty domain field, a
vertex that arrived with its domain set still holds exactly that domain, and a
vertex that arrived without one now holds the sentinel or a canonical
domain. -/
theorem claim_C6 (ext : Nat → List SenTree) (vs : List OrderVertex) (st2 : PassState)
    (h : runPass ext vs = Except.ok st2) :
    ∀ (idx : Nat) (v : OrderVertex), vs[idx]? = some v →
      (∃ d, st2.doms[idx]? = some (some d))
      ∧ (∀ d0, v.initDomain = some d0 → st2.doms[idx]? = some (some d0))
      ∧ (v.initDomain = none →
          st2.doms[idx]? = some (some Dom.del)
          ∨ ∃ t, st2.doms[idx]? = some (some (Dom.tree t)) ∧ t.backp = true) := by
  unfold runPass at h
  obtain ⟨hlen, hpres, hdel, hown⟩ :=
    runPassGo_inv ext (vs.map OrderVertex.info) vs 0
      { doms := vs.map OrderVertex.initDomain, toDelete := [] } st2 h
  have hvsome : ∀ (idx : Nat) (v : OrderVertex), vs[idx]? = some v →
      ∃ d, st2.doms[idx]? = some (some d) := by
    intro idx v hv
    have hlt : 0 + idx < (vs.map OrderVertex.initDomain).length := by
      simp only [List.length_map]
      have : idx < vs.length := by
        by_contra hc
        rw [List.getElem?_eq_none (by omega)] at hv
        cases hv
      omega
    obtain ⟨d, hd⟩ := hown idx v hv hlt
    exact ⟨d, by simpa using hd⟩
  intro idx v hv
  refine ⟨hvsome idx v hv, ?_, ?_⟩
  · intro d0 hd0
    have hinit : (vs.map OrderVertex.initDomain)[idx]? = some (some d0) := by
      rw [List.getElem?_map, hv]
      simp [hd0]
    exact hpres idx d0 hinit
  · intro hd0
    obtain ⟨d, hd⟩ := hvsome idx v hv
    rcases runPassGo_new_entries ext (vs.map OrderVertex.info) vs 0
        { doms := vs.map OrderVertex.initDomain, toDelete := [] } st2 h idx d hd
      with h1 | h2 | ⟨t, ht, hb⟩
    · rw [List.getElem?_map, hv] at h1
      simp [hd0] at h1
    · exact Or.inl (h2 ▸ hd)
    · exact Or.inr ⟨t, ht ▸ hd, hb⟩

theorem claim_C6_witness :
    (∃ d, ([some (Dom.tree ⟨[⟨SenEdge.pos, 0⟩], false, true⟩),
            some (Dom.tree ⟨[⟨SenEdge.pos, 0⟩], false, true⟩)] :
        List (Option Dom))[1]? = some (some d))
    ∧ (∀ d0, (none : Option Dom) = some d0 →
        ([some (Dom.tree ⟨[⟨SenEdge.pos, 0⟩], false, true⟩),
          some (Dom.tree ⟨[⟨SenEdge.pos, 0⟩], false, true⟩)] :
          List (Option Dom))[1]? = some (some d0))
    ∧ ((none : Option Dom) = none →
        ([some (Dom.tree ⟨[⟨SenEdge.pos, 0⟩], false, true⟩),
          some (Dom.tree ⟨[⟨SenEdge.pos, 0⟩], false, true⟩)] :
          List (Option Dom))[1]? = some (some Dom.del)
        ∨ ∃ t, ([some (Dom.tree ⟨[⟨SenEdge.pos, 0⟩], false, true⟩),
            some (Dom.tree ⟨[⟨SenEdge.pos, 0⟩], false, true⟩)] :
            List (Option Dom))[1]? = some (some (Dom.tree t)) ∧ t.backp = true) :=
  claim_C6 (fun _ => [])
    [⟨VtxKind.varStd, true, none, some (Dom.tree ⟨[⟨SenEdge.pos, 0⟩], false, true⟩),
      0, 0, []⟩,
     ⟨VtxKind.logic, true, none, none, 0, 1, [(0, 5)]⟩]
    ⟨[some (Dom.tree ⟨[⟨SenEdge.pos, 0⟩], false, true⟩),
      some (Dom.tree ⟨[⟨SenEdge.pos, 0⟩], false, true⟩)], []⟩
    rfl 1 ⟨VtxKind.logic, true, none, none, 0, 1, [(0, 5)]⟩ rfl

theorem claim_C8_counterexample :
    ¬ List.Sorted (fun a b : String => a < b)
      (processEdgeReport
        [⟨VtxKind.varStd, true, none, none, 0, 0, []⟩,
         ⟨VtxKind.varStd, true, none, none, 0, 0, []⟩]
        [Dom.del, Dom.del]) := by
  intro h
  have hline : processEdgeReport
      [⟨VtxKind.varStd, true, none, none, 0, 0, []⟩,
       ⟨VtxKind.varStd, true, none, none, 0, 0, []⟩]
      [Dom.del, Dom.del]
      = [reportLine ⟨VtxKind.varStd, true, none, none, 0, 0, []⟩ Dom.del,
         reportLine ⟨VtxKind.varStd, true, none, none, 0, 0, []⟩ Dom.del] := by
    have hl : reportLines
        [⟨VtxKind.varStd, true, none, none, 0, 0, []⟩,
         ⟨VtxKind.varStd, true, none, none, 0, 0, []⟩]
        [Dom.del, Dom.del]
        = [reportLine ⟨VtxKind.varStd, true, none, none, 0, 0, []⟩ Dom.del,
           reportLine ⟨VtxKind.varStd, true, none, none, 0, 0, []⟩ Dom.del] := rfl
    unfold processEdgeReport
    rw [hl]
    simp [List.insertionSort, List.orderedInsert, le_refl]
  rw [hline] at h
  have hlt := (List.sorted_cons.mp h).1
    (reportLine ⟨VtxKind.varStd, true, none, none, 0, 0, []⟩ Dom.del) (by simp)
  exact absurd hlt (lt_irrefl _)

/-- Claim C8 (amended): the diagnostic edge report's lines are sorted in
non-decreasing lexicographic order before being written out, for every graph
and every traversal order; with duplicate lines present the order cannot be
strict, which is the only amendment. -/
theorem claim_C8 (vs : List OrderVertex) (doms : List Dom) :
    List.Sorted (fun a b : String => a ≤ b) (processEdgeReport vs doms) :=
  List.sorted_insertionSort (fun a b : String => a ≤ b) (reportLines vs doms)

theorem deleteDeadGo_getElem? (dead : List Nat) :
    ∀ (vs : List OrderVertex) (base k : Nat),
    (deleteDeadGo dead vs base)[k]?
      = (vs[k]?).map (fun v => if dead.contains (base + k) then none
          else some { v with inEdges := v.inEdges.filter (fun q => !dead.contains q.1) })
  | [], base, k => by simp [deleteDeadGo]
  | v :: rest, base, 0 => by simp [deleteDeadGo]
  | v :: rest, base, k + 1 => by
    simp only [deleteDeadGo, List.getElem?_cons_succ]
    rw [deleteDeadGo_getElem? dead rest (base + 1) k]
    have hb : base + 1 + k = base + (k + 1) := by omega
    rw [hb]

theorem checkDeleted_ok (doms : List (Option Dom)) :
    ∀ (l : List Nat), checkDeleted doms l = Except.ok () →
    ∀ i, i ∈ l → (doms[i]?).getD none = some Dom.del
  | [], _, i, hi => by simp at hi
  | j :: rest, h, i, hi => by
    unfold checkDeleted at h
    split at h
    · rename_i hj
      rcases List.mem_cons.mp hi with h1 | h2
      · exact h1 ▸ hj
      · exact checkDeleted_ok doms rest h i h2
    · cases h

theorem getD_some_del {l : List (Option Dom)} {i : Nat}
    (h : (l[i]?).getD none = some Dom.del) : l[i]? = some (some Dom.del) := by
  cases hl : l[i]? with
  | none => rw [hl] at h; cases h
  | some o =>
    rw [hl] at h
    simp at h
    rw [h]

theorem runPass_toDelete_logic (ext : Nat → List SenTree) (vs : List OrderVertex)
    (st2 : PassState) (h : runPass ext vs = Except.ok st2) :
    ∀ n, n ∈ st2.toDelete → ∃ v, vs[n]? = some v ∧ v.kind = VtxKind.logic := by
  unfold runPass at h
  obtain ⟨_, _, hdel, _⟩ :=
    runPassGo_inv ext (vs.map OrderVertex.info) vs 0
      { doms := vs.map OrderVertex.initDomain, toDelete := [] } st2 h
  intro n hn
  rcases hdel n hn with h1 | ⟨k, v, hv, hnk, hvk⟩
  · simp at h1
  · exact ⟨v, by rwa [show n = k by omega], hvk⟩

/-- Claim C10: variable vertices with the sentinel domain are never deleted:
every recorded dead vertex is a logic vertex, a non-logic vertex always
survives the deletion step (only losing edges from deleted vertices), and a
sentinel-domain variable vertex is rendered as DELETED in the report. -/
theorem claim_C10 (ext : Nat → List SenTree) (vs : List OrderVertex) (r : ApplyResult)
    (h : applyPass ext vs = Except.ok r) :
    (∀ i, i ∈ r.deleted → ∃ v, vs[i]? = some v ∧ v.kind = VtxKind.logic)
    ∧ (∀ (i : Nat) (v : OrderVertex), vs[i]? = some v → v.kind ≠ VtxKind.logic →
        r.graph[i]? = some (some { v with
          inEdges := v.inEdges.filter (fun q => !r.deleted.contains q.1) }))
    ∧ (∀ v : OrderVertex, reportLine v Dom.del = lineHead v ++ "DELETED") := by
  unfold applyPass at h
  cases hrp : runPass ext vs with
  | error msg => rw [hrp] at h; cases h
  | ok st =>
    rw [hrp] at h
    dsimp only at h
    cases hcd : checkDeleted st.doms st.toDelete with
    | error msg => rw [hcd] at h; cases h
    | ok u =>
      cases u
      rw [hcd] at h
      dsimp only at h
      cases h
      refine ⟨runPass_toDelete_logic ext vs st hrp, ?_, fun v => rfl⟩
      intro i v hv hvk
      have hni : ¬ i ∈ st.toDelete := by
        intro hc
        obtain ⟨w, hw, hwk⟩ := runPass_toDelete_logic ext vs st hrp i hc
        rw [hv] at hw
        cases hw
        exact hvk hwk
      show (deleteDead vs st.toDelete)[i]? = _
      unfold deleteDead
      rw [deleteDeadGo_getElem? st.toDelete vs 0 i, hv]
      simp [hni]

theorem claim_C10_witness :
    (∀ i, i ∈ ([0] : List Nat) →
      ∃ v, ([⟨VtxKind.logic, true, none, none, 0, 3, []⟩] :
        List OrderVertex)[i]? = some v ∧ v.kind = VtxKind.logic)
    ∧ (∀ (i : Nat) (v : OrderVertex),
        ([⟨VtxKind.logic, true, none, none, 0, 3, []⟩] : List OrderVertex)[i]? = some v →
        v.kind ≠ VtxKind.logic →
        ([none] : List (Option OrderVertex))[i]? = some (some { v with
          inEdges := v.inEdges.filter (fun q => !([0] : List Nat).contains q.1) }))
    ∧ (∀ v : OrderVertex, reportLine v Dom.del = lineHead v ++ "DELETED") :=
  claim_C10 (fun _ => []) [⟨VtxKind.logic, true, none, none, 0, 3, []⟩]
    ⟨[some Dom.del], [0], [3], [none]⟩ rfl

theorem checkHybrid_ok {v : OrderVertex} {d : Option Dom}
    (h : checkHybrid v = Except.ok d) : d = initialSeed v := by
  unfold checkHybrid at h
  split at h
  · rename_i hseed
    cases h
    exact hseed.symm
  · cases h
  · rename_i hseed
    split at h
    · cases h
      exact hseed.symm
    · cases h

/-- Claim C1: a vertex whose working domain is still unset after its incoming
edges are processed is assigned the delete sentinel and, when it is a logic
vertex, recorded in the dead-logic list (non-logic vertices are not recorded);
and the full run re-checks every recorded vertex still holds the sentinel only
after the whole pass completed, then detaches and deletes its logic content
and removes the vertex and its edges from the graph, leaving every other
vertex in place with only its edges from deleted vertices dropped. -/
theorem claim_C1 :
    (∀ (ext : Nat → List SenTree) (infos : List VtxInfo) (st : PassState) (idx : Nat)
       (v : OrderVertex) (st2 : PassState),
       (st.doms[idx]?).getD none = none →
       idx < st.doms.length →
       processVertex ext infos st idx v = Except.ok st2 →
       foldInputs ext infos st.doms (initialSeed v) v.inEdges = Except.ok none →
       st2.doms[idx]? = some (some Dom.del)
       ∧ (v.kind = VtxKind.logic → idx ∈ st2.toDelete)
       ∧ (v.kind ≠ VtxKind.logic → st2.toDelete = st.toDelete))
    ∧ (∀ (ext : Nat → List SenTree) (vs : List OrderVertex) (r : ApplyResult),
       applyPass ext vs = Except.ok r →
       (∀ i, i ∈ r.deleted → r.doms[i]? = some (some Dom.del))
       ∧ (∀ i, i ∈ r.deleted → r.graph[i]? = some none)
       ∧ (∀ (i : Nat) (v : OrderVertex), vs[i]? = some v → ¬ i ∈ r.deleted →
           r.graph[i]? = some (some { v with
             inEdges := v.inEdges.filter (fun q => !r.deleted.contains q.1) }))
       ∧ r.deletedNodes = r.deleted.filterMap (fun i => (vs[i]?).map OrderVertex.nodep)) := by
  constructor
  · intro ext infos st idx v st2 hunset hlt hpv hfold
    unfold processVertex at hpv
    rw [hunset] at hpv
    dsimp only [Option.isSome] at hpv
    rw [if_neg (by simp)] at hpv
    cases hch : checkHybrid v with
    | error msg => rw [hch] at hpv; cases hpv
    | ok dom0 =>
      rw [hch] at hpv
      dsimp only at hpv
      rw [checkHybrid_ok hch, hfold] at hpv
      cases hpv
      refine ⟨by simpa using List.getElem?_set_eq_of_lt (some Dom.del) hlt, ?_, ?_⟩
      · intro hvk
        simp [hvk]
      · intro hvk
        simp [hvk]
  · intro ext vs r h
    unfold applyPass at h
    cases hrp : runPass ext vs with
    | error msg => rw [hrp] at h; cases h
    | ok st =>
      rw [hrp] at h
      dsimp only at h
      cases hcd : checkDeleted st.doms st.toDelete with
      | error msg => rw [hcd] at h; cases h
      | ok u =>
        cases u
        rw [hcd] at h
        dsimp only at h
        cases h
        refine ⟨?_, ?_, ?_, rfl⟩
        · intro i hi
          exact getD_some_del (checkDeleted_ok st.doms st.toDelete hcd i hi)
        · intro i hi
          obtain ⟨v, hv, _⟩ := runPass_toDelete_logic ext vs st hrp i hi
          show (deleteDead vs st.toDelete)[i]? = some none
          unfold deleteDead
          rw [deleteDeadGo_getElem? st.toDelete vs 0 i, hv]
          simp [hi]
        · intro i v hv hni
          show (deleteDead vs st.toDelete)[i]? = _
          unfold deleteDead
          rw [deleteDeadGo_getElem? st.toDelete vs 0 i, hv]
          simp [hni]

theorem claim_C1_witness :
    ((⟨[some Dom.del], [0]⟩ : PassState).doms[0]? = some (some Dom.del)
      ∧ (VtxKind.logic = VtxKind.logic → 0 ∈ (⟨[some Dom.del], [0]⟩ : PassState).toDelete)
      ∧ (VtxKind.logic ≠ VtxKind.logic →
          (⟨[some Dom.del], [0]⟩ : PassState).toDelete = (⟨[none], []⟩ : PassState).toDelete))
    ∧ ((∀ i, i ∈ ([0] : List Nat) →
          ([some Dom.del] : List (Option Dom))[i]? = some (some Dom.del))
      ∧ (∀ i, i ∈ ([0] : List Nat) →
          ([none] : List (Option OrderVertex))[i]? = some none)
      ∧ (∀ (i : Nat) (v : OrderVertex),
          ([⟨VtxKind.logic, true, none, none, 0, 3, []⟩] : List OrderVertex)[i]? = some v →
          ¬ i ∈ ([0] : List Nat) →
          ([none] : List (Option OrderVertex))[i]? = some (some { v with
            inEdges := v.inEdges.filter (fun q => !([0] : List Nat).contains q.1) }))
      ∧ ([3] : List Nat) = ([0] : List Nat).filterMap
          (fun i => (([⟨VtxKind.logic, true, none, none, 0, 3, []⟩] :
            List OrderVertex)[i]?).map OrderVertex.nodep)) :=
  ⟨claim_C1.1 (fun _ => []) [] ⟨[none], []⟩ 0
      ⟨VtxKind.logic, true, none, none, 0, 3, []⟩ ⟨[some Dom.del], [0]⟩
      rfl (by decide) rfl rfl,
   claim_C1.2 (fun _ => []) [⟨VtxKind.logic, true, none, none, 0, 3, []⟩]
      ⟨[some Dom.del], [0], [3], [none]⟩ rfl⟩
